import Mathlib

/-!
Shallow embedding of `stagesepx/cutter.py` (classes `VideoCutRange`,
`VideoCutResult`, `VideoCutter`) and proofs about the range classification
and merge engine.

Modelling conventions:
* Python floats (similarity scores, timestamps, thresholds) are modelled as `ℚ`
  (exact arithmetic; float rounding and NaN are out of scope).
* Python `int` frame ids are modelled as `Int`.
* Optional parameters that default when falsy (`if not x: x = d`) are modelled
  as `Option` arguments, where both `none` (omitted) and the zero value select
  the default, exactly as in the source.
* Fallible code (Python `IndexError` from `lst[-1]` on an empty list, the
  `RuntimeError` raised by `get_target_range_by_id`, the `assert` in `merge`)
  is modelled with `Option`, `none` standing for the raised exception.
-/

namespace Stagesepx

/-- Embeds class `VideoCutRange` of `cutter.py`: an inclusive interval of frame
ids in one video, with the similarity scores collected for it.  The Python
attribute `end` is called `end_` here (`end` is a Lean keyword); `ssim` is the
list of scores. -/
structure VideoCutRange where
  video_path : String
  start : Int
  end_ : Int
  ssim : List ℚ
  start_time : ℚ
  end_time : ℚ
deriving Repr, DecidableEq

/-- Embeds `VideoCutRange.__init__`: if `start > end` the bounds are swapped,
and the timestamps are swapped with them. -/
def VideoCutRange.make (video_path : String) (start end_ : Int) (ssim : List ℚ)
    (start_time end_time : ℚ) : VideoCutRange :=
  if start > end_ then
    ⟨video_path, end_, start, ssim, end_time, start_time⟩
  else
    ⟨video_path, start, end_, ssim, start_time, end_time⟩

/-- The falsy-default pattern `if not x: x = d` of the Python source for a
float parameter: both an omitted argument and an explicit `0` select the
default `d`. -/
def py_default (x : Option ℚ) (d : ℚ) : ℚ :=
  match x with
  | none => d
  | some v => if v = 0 then d else v

/-- Embeds `VideoCutRange.can_merge`.  The Python `offset` parameter defaults
to `None`; `if not offset` treats both `None` and `0` as "no offset", in which
case the continuity test is the strict `self.end == another.start`, otherwise
it is `self.end + offset >= another.start`. -/
def VideoCutRange.can_merge (a b : VideoCutRange) (offset : Option Int) : Bool :=
  (match offset with
   | none => a.end_ == b.start
   | some o => if o = 0 then a.end_ == b.start else decide (a.end_ + o ≥ b.start))
  && (a.video_path == b.video_path)

/-- The range built by `VideoCutRange.merge` once its `assert` has passed:
`__class__(self.video_path, self.start, another.end, self.ssim + another.ssim,
self.start_time, another.end_time)` (note the constructor normalisation of
`make` applies). -/
def VideoCutRange.merge_value (a b : VideoCutRange) : VideoCutRange :=
  VideoCutRange.make a.video_path a.start b.end_ (a.ssim ++ b.ssim)
    a.start_time b.end_time

/-- Embeds `VideoCutRange.merge`: `assert self.can_merge(another, **kwargs)`
then build the merged range; a failed assert is modelled as `none`. -/
def VideoCutRange.merge (a b : VideoCutRange) (offset : Option Int) :
    Option VideoCutRange :=
  if a.can_merge b offset then some (a.merge_value b) else none

/-- Embeds `VideoCutRange.contain`: `frame_id in range(self.start, self.end + 1)`. -/
def VideoCutRange.contain (r : VideoCutRange) (frame_id : Int) : Bool :=
  decide (r.start ≤ frame_id) && decide (frame_id ≤ r.end_)

/-- Embeds `VideoCutRange.get_length`: `self.end - self.start + 1`. -/
def VideoCutRange.get_length (r : VideoCutRange) : Int :=
  r.end_ - r.start + 1

/-- Python `int()` applied to a rational value: truncation toward zero. -/
def pyint (q : ℚ) : Int :=
  if q < 0 then -⌊-q⌋ else ⌊q⌋

/-- Embeds the non-random branch of `VideoCutRange.pick` (the `is_random`
branch calls `random.sample` and is external nondeterminism, out of scope for
the claims).  `frame_count` defaults to `1` when falsy; each picked id is
`int(self.start + length / frame_count * i)` for `i in range(frame_count)`
(a negative `frame_count` yields an empty loop, as in Python). -/
def VideoCutRange.pick (r : VideoCutRange) (frame_count : Option Int) : List Int :=
  (List.range (match frame_count with
               | none => (1 : Int)
               | some n => if n = 0 then 1 else n).toNat).map
    (fun (i : Nat) => pyint ((r.start : ℚ) + (r.get_length : ℚ) /
      ((match frame_count with
        | none => (1 : Int)
        | some n => if n = 0 then 1 else n) : ℚ) * (i : ℚ)))

/-- Arithmetic mean of a score list, `np.mean` on a non-empty list.  (On the
empty list `np.mean` is NaN and every `>` comparison is false; here the empty
mean is `0`, which under positive thresholds compares the same way.) -/
def listMean (l : List ℚ) : ℚ :=
  l.sum / (l.length : ℚ)

/-- Embeds `VideoCutRange.is_stable`: threshold defaults to `0.95` when falsy,
then `np.mean(self.ssim) > threshold`. -/
def VideoCutRange.is_stable (r : VideoCutRange) (threshold : Option ℚ) : Bool :=
  decide (listMean r.ssim > py_default threshold (95/100))

/-- Embeds the threshold logic of `VideoCutRange.is_loop`.  The frames at
`start` and `end` and their compared similarity come from the external
toolbox/OpenCV frame source; that similarity is abstracted as the argument
`sim`.  The source's own logic is the falsy default (`0.95`) and the strict
comparison `sim > threshold`. -/
def is_loop (sim : ℚ) (threshold : Option ℚ) : Bool :=
  decide (sim > py_default threshold (95/100))

/-- Embeds class `VideoCutResult`: the video plus its ordered elementary
`VideoCutRange` list (`ssim_list`). -/
structure VideoCutResult where
  video_path : String
  ssim_list : List VideoCutRange
deriving Repr, DecidableEq

/-- Embeds `VideoCutResult.get_target_range_by_id`: first elementary range
containing the frame id; the `RuntimeError(f'frame .. not found in video')`
is modelled as `none`. -/
def VideoCutResult.get_target_range_by_id (res : VideoCutResult) (frame_id : Int) :
    Option VideoCutRange :=
  res.ssim_list.find? (fun each => each.contain frame_id)

/-- Embeds `VideoCutResult._length_filter`: keep ranges with
`get_length() >= limit`. -/
def length_filter (range_list : List VideoCutRange) (limit : Int) :
    List VideoCutRange :=
  range_list.filter (fun each => decide (each.get_length ≥ limit))

/-- The `if limit:` falsy guard around `_length_filter` in the source: the
filter runs only when `limit` is given and non-zero. -/
def apply_limit (limit : Option Int) (l : List VideoCutRange) :
    List VideoCutRange :=
  match limit with
  | none => l
  | some v => if v = 0 then l else length_filter l v

/-- Stable insertion (by `start`) used to model Python's stable
`sorted(key=lambda x: x.start)`. -/
def insert_by_start (r : VideoCutRange) : List VideoCutRange → List VideoCutRange
  | [] => [r]
  | x :: xs => if r.start ≤ x.start then r :: x :: xs else x :: insert_by_start r xs

/-- Stable sort by `start`, extensionally the Python
`sorted(lst, key=lambda x: x.start)`. -/
def sort_by_start : List VideoCutRange → List VideoCutRange
  | [] => []
  | x :: xs => insert_by_start x (sort_by_start xs)

/-- The merge scan of `VideoCutResult.get_unstable_range` (the `while` loops
at lines 159-172 of `cutter.py`), started with accumulator `cur` and the
unconsumed candidates: while `cur.can_merge(next)` fold the next candidate
into `cur` (the `merge` call's assert always passes, having just been
checked, so `merge_value` is its result); on a merge failure emit `cur` and
restart from the next candidate — except that a final candidate reached with
nothing after it is dropped (the outer loop condition `i < len - 1`), exactly
as in the source. -/
def scanMerge (off : Option Int) : VideoCutRange → List VideoCutRange → List VideoCutRange
  | cur, [] => [cur]
  | cur, b :: rest =>
    if cur.can_merge b off then
      scanMerge off (cur.merge_value b) rest
    else
      match rest with
      | [] => [cur]
      | _ :: _ => cur :: scanMerge off b rest

/-- Embeds `VideoCutResult.get_unstable_range` (without the `range_threshold`
loop filter, whose `is_loop` needs the external frame source; every claim
settles it with `range_threshold` absent, where the source skips that filter).
Select the non-stable elementary ranges, sort by `start`, run the merge scan,
re-append the last candidate when `change_range_list[-1].start >
merged_change_range_list[-1].end`, then apply the length filter when `limit`
is truthy.  The `IndexError` raised by `change_range_list[-1]` (no candidates)
or `merged_change_range_list[-1]` (single candidate: the scan emitted
nothing) is modelled as `none`. -/
def VideoCutResult.get_unstable_range (res : VideoCutResult) (limit : Option Int)
    (threshold : Option ℚ) (off : Option Int) : Option (List VideoCutRange) :=
  match sort_by_start (res.ssim_list.filter (fun i => ! i.is_stable threshold)) with
  | [] => none
  | [_] => none
  | c1 :: c2 :: cs =>
    match (scanMerge off c1 (c2 :: cs)).getLast? with
    | none => none
    | some m =>
      some (apply_limit limit
        (if ((c2 :: cs).getLast (List.cons_ne_nil _ _)).start > m.end_ then
          scanMerge off c1 (c2 :: cs) ++ [(c2 :: cs).getLast (List.cons_ne_nil _ _)]
        else
          scanMerge off c1 (c2 :: cs)))

/-- The "diff range" loop of `VideoCutResult.get_range` (lines 238-250): for
each adjacent pair `u[i], u[i+1]` of unstable ranges, build the interior
stable range `[u[i].end + 1, u[i+1].start - 1]`, with timestamps looked up by
`get_target_range_by_id` at `range_start_id - 1` and `range_end_id - 1`; a
failed lookup (`RuntimeError`) is `none`. -/
def interior_ranges (res : VideoCutResult) : List VideoCutRange → Option (List VideoCutRange)
  | [] => some []
  | [_] => some []
  | a :: b :: rest =>
    match res.get_target_range_by_id (a.end_ + 1 - 1),
          res.get_target_range_by_id (b.start - 1 - 1) with
    | some t1, some t2 =>
      match interior_ranges res (b :: rest) with
      | none => none
      | some tail =>
        some (VideoCutRange.make res.video_path (a.end_ + 1) (b.start - 1) [1]
          t1.start_time t2.end_time :: tail)
    | _, _ => none

/-- `self.ssim_list[-1].end` of `get_range`: the video's last frame id. -/
def last_frame_id (res : VideoCutResult) : Int :=
  match res.ssim_list.getLast? with
  | none => 0
  | some r => r.end_

/-- Embeds `VideoCutResult.get_range`: compute the unstable list, then the
leading stable range `[0, unstable[0].start - 1]`, the trailing stable range
`[unstable[-1].end, ssim_list[-1].end]`, and the interior stable ranges, each
with sentinel score `[1.]` and timestamps recovered through
`get_target_range_by_id`; length-filter when `limit` is truthy, sort the
stable list by `start`, and return `(stable, unstable)`.  Each Python
exception path (`IndexError` on an empty list, `RuntimeError` on a failed
frame lookup) is `none`. -/
def VideoCutResult.get_range (res : VideoCutResult) (limit : Option Int)
    (threshold : Option ℚ) (off : Option Int) :
    Option (List VideoCutRange × List VideoCutRange) :=
  match res.get_unstable_range limit threshold off with
  | none => none
  | some unstable_range_list =>
    match res.ssim_list.getLast? with
    | none => none
    | some lastE =>
      match unstable_range_list.head?, unstable_range_list.getLast? with
      | some u0, some uN =>
        match res.get_target_range_by_id (u0.start - 1 - 1),
              res.get_target_range_by_id (uN.end_ - 1) with
        | some t1, some t2 =>
          match interior_ranges res unstable_range_list with
          | none => none
          | some diff =>
            some (sort_by_start (apply_limit limit
                (VideoCutRange.make res.video_path 0 (u0.start - 1) [1] 0 t1.start_time ::
                 VideoCutRange.make res.video_path uN.end_ lastE.end_ [1] t2.end_time lastE.end_time ::
                 diff)),
              unstable_range_list)
        | _, _ => none
      | _, _ => none

/-- Embeds the frame-id arithmetic of
`VideoCutter.convert_video_into_ssim_list`.  Frame decoding, block splitting
and the per-block minimum similarity come from the external toolbox/OpenCV
frame source; they are abstracted as the number of loop iterations `n` (how
often `ret` was true), the per-iteration worst-block score stream `fs` and
end-timestamp stream `ft`.  What the source itself contributes is kept
exactly: each iteration emits `VideoCutRange(video_path, start_frame_id,
end_frame_id, [ssim], start_frame_time, end_frame_time)` and then advances
`start_frame_id, end_frame_id = end_frame_id, end_frame_id + step`,
`start_frame_time = end_frame_time`. -/
def convert_video_into_ssim_list (video_path : String) (step : Int) :
    Nat → Int → Int → ℚ → (Nat → ℚ) → (Nat → ℚ) → List VideoCutRange
  | 0, _, _, _, _, _ => []
  | n + 1, s, e, st, fs, ft =>
    VideoCutRange.make video_path s e [fs 0] st (ft 0) ::
    convert_video_into_ssim_list video_path step n e (e + step) (ft 0)
      (fun k => fs (k + 1)) (fun k => ft (k + 1))

/-! ## Concrete instances used by counterexamples and witnesses -/

/-- Elementary range `[1,4]`, stable (score `0.99`). -/
def e1 : VideoCutRange := VideoCutRange.make "v" 1 4 [99/100] 0 1

/-- Elementary range `[4,7]`, unstable (score `0.5`). -/
def e2 : VideoCutRange := VideoCutRange.make "v" 4 7 [1/2] 1 2

/-- Elementary range `[7,10]`, unstable (score `0.5`). -/
def e3 : VideoCutRange := VideoCutRange.make "v" 7 10 [1/2] 2 3

/-- Elementary range `[10,13]`, stable (score `0.99`). -/
def e4 : VideoCutRange := VideoCutRange.make "v" 10 13 [99/100] 3 4

/-- A well-formed pipeline output: stable, unstable, unstable, stable, with
consecutive elementary ranges sharing their boundary frame. -/
def res1 : VideoCutResult := ⟨"v", [e1, e2, e3, e4]⟩

/-- The stable list `get_range` returns on `res1`. -/
def S1 : List VideoCutRange :=
  [⟨"v", 0, 3, [1], 0, 0⟩, ⟨"v", 10, 13, [1], 3, 4⟩]

/-- The unstable list `get_range` returns on `res1`. -/
def U1 : List VideoCutRange := [⟨"v", 4, 10, [1/2, 1/2], 1, 3⟩]

/-- A perfectly stable video: every elementary range is stable. -/
def resAllStable : VideoCutResult :=
  ⟨"v", [VideoCutRange.make "v" 1 2 [99/100] 0 1]⟩

/-- A video with exactly one unstable elementary candidate. -/
def resSingleUnstable : VideoCutResult :=
  ⟨"v", [VideoCutRange.make "v" 1 2 [1/2] 0 1,
         VideoCutRange.make "v" 2 3 [99/100] 1 2]⟩

/-- A video whose very first elementary range is unstable. -/
def resEarlyUnstable : VideoCutResult :=
  ⟨"v", [VideoCutRange.make "v" 1 2 [1/2] 0 1,
         VideoCutRange.make "v" 2 3 [1/2] 1 2,
         VideoCutRange.make "v" 3 4 [99/100] 2 3]⟩

/-- The spec's sampling-scenario range `{start=10, end=19}` (length 10). -/
def R6 : VideoCutRange := VideoCutRange.make "v" 10 19 [1] 0 0

/-- A range with negative frame ids (exercises `int()` truncation vs floor). -/
def R6n : VideoCutRange := VideoCutRange.make "v" (-10) (-1) [1] 0 0

/-- A range whose single score sits exactly on the default threshold. -/
def S95 : VideoCutRange := VideoCutRange.make "v" 1 2 [95/100] 0 0

/-- A range whose single score is just above the default threshold. -/
def S951 : VideoCutRange := VideoCutRange.make "v" 1 2 [951/1000] 0 0

/-- A range with a positive score well below the default threshold. -/
def Spos : VideoCutRange := VideoCutRange.make "v" 1 2 [1/2] 0 0

/-- Range `[0,5]` in video `"v"`. -/
def A4 : VideoCutRange := VideoCutRange.make "v" 0 5 [] 0 0

/-- Range `[3,7]` in video `"v"`: overlaps `A4`, same video. -/
def B4 : VideoCutRange := VideoCutRange.make "v" 3 7 [] 0 0

/-! ## C2, C3: crashes on empty / singleton candidate lists -/

/-- C2: the claim says a perfectly stable video (empty unstable candidate
list) gets a defined fallback result; the code instead evaluates
`change_range_list[-1]` on the empty list, raising `IndexError`, so both
`get_unstable_range` and `get_range` fail (here: `none`) instead of
returning a fallback. -/
theorem get_range_all_stable_crash :
    resAllStable.get_unstable_range none none none = none ∧
    resAllStable.get_range none none none = none := by
  constructor <;> with_unfolding_all rfl

/-- C3: the claim says a sorted candidate list with exactly one element is
emitted as the sole merged range; the code's merge scan emits nothing for a
single candidate (`while i < len - 1` never runs) and the final guard then
evaluates `merged_change_range_list[-1]` on the empty list, raising
`IndexError` (here: `none`).  The second conjunct checks the input really
has exactly one unstable candidate. -/
theorem get_unstable_range_singleton_crash :
    resSingleUnstable.get_unstable_range none none none = none ∧
    (resSingleUnstable.ssim_list.filter (fun i => ! i.is_stable none)).length = 1 := by
  constructor <;> with_unfolding_all rfl

/-! ## C4: can_merge -/

/-- C4: counterexample to the claim that `can_merge(b, offset)` is true iff
same video and `end + offset ≥ start`: at `offset = 0` the code tests strict
equality `end == start`, so `A4 = [0,5]` and `B4 = [3,7]` (same video,
`5 + 0 ≥ 3`) are reported not mergeable. -/
theorem can_merge_offset_zero_counterexample :
    A4.can_merge B4 (some 0) = false ∧ A4.video_path = B4.video_path ∧
    A4.end_ + 0 ≥ B4.start := by
  refine ⟨rfl, rfl, by decide⟩

/-- C4 (amended): for a non-zero offset, `can_merge` is same-video plus
`end + offset ≥ start`; for offset `0` or omitted it is same-video plus the
strict `end == start`. -/
theorem can_merge_spec (a b : VideoCutRange) (o : Int) (ho : o ≠ 0) :
    (a.can_merge b (some o) =
      (decide (a.end_ + o ≥ b.start) && (a.video_path == b.video_path))) ∧
    (a.can_merge b (some 0) = ((a.end_ == b.start) && (a.video_path == b.video_path))) ∧
    (a.can_merge b none = ((a.end_ == b.start) && (a.video_path == b.video_path))) := by
  refine ⟨?_, rfl, rfl⟩
  simp [VideoCutRange.can_merge, ho]

/-- Witness for `can_merge_spec` at a concrete non-zero offset. -/
theorem can_merge_spec_witness :
    A4.can_merge B4 (some (-1)) =
      (decide (A4.end_ + (-1) ≥ B4.start) && (A4.video_path == B4.video_path)) :=
  (can_merge_spec A4 B4 (-1) (by decide)).1

/-! ## C5: merge -/

/-- C5: on mergeable ranges (default offset) `merge` returns the new range
`[a.start, b.end]` with `a`'s start time, `b`'s end time, and the
concatenated score lists (inputs are values, so they are unchanged); on any
non-mergeable pair (any offset) the `assert` fails and no range is produced. -/
theorem merge_spec (a b : VideoCutRange) (ha : a.start ≤ a.end_) (hb : b.start ≤ b.end_) :
    (a.can_merge b none = true →
      a.merge b none =
        some ⟨a.video_path, a.start, b.end_, a.ssim ++ b.ssim, a.start_time, b.end_time⟩) ∧
    (∀ off : Option Int, a.can_merge b off = false → a.merge b off = none) := by
  constructor
  · intro h
    have hend : a.end_ = b.start := by
      have := h
      simp only [VideoCutRange.can_merge, Bool.and_eq_true, beq_iff_eq] at this
      exact this.1
    rw [VideoCutRange.merge, if_pos h, VideoCutRange.merge_value, VideoCutRange.make,
      if_neg (by omega)]
  · intro off h
    rw [VideoCutRange.merge, h]
    simp

/-- Witness for `merge_spec`: merging the adjacent halves of `res1`'s
unstable region. -/
theorem merge_spec_witness :
    e2.merge e3 none = some ⟨"v", 4, 10, [1/2, 1/2], 1, 3⟩ := by
  have h := (merge_spec e2 e3 (by decide) (by decide)).1 (by with_unfolding_all rfl)
  rw [h]
  with_unfolding_all rfl

/-! ## C9: is_stable -/

/-- C9: `is_stable` is "mean of scores strictly above the (non-falsy, else
default `0.95`) threshold"; a lone score `0.95` is not stable under the
default, a lone `0.951` is. -/
theorem is_stable_mean_spec :
    (∀ (r : VideoCutRange) (t : ℚ), t ≠ 0 →
      r.is_stable (some t) = decide (listMean r.ssim > t)) ∧
    (∀ r : VideoCutRange, r.is_stable none = decide (listMean r.ssim > 95/100)) ∧
    S95.is_stable none = false ∧ S951.is_stable none = true := by
  refine ⟨fun r t ht => ?_, fun r => rfl, ?_, ?_⟩
  · simp [VideoCutRange.is_stable, py_default, ht]
  · with_unfolding_all rfl
  · with_unfolding_all rfl

/-- Witness for `is_stable_mean_spec` at a concrete non-zero threshold. -/
theorem is_stable_mean_spec_witness :
    S951.is_stable (some (9/10)) = decide (listMean S951.ssim > 9/10) :=
  is_stable_mean_spec.1 S951 (9/10) (by norm_num)

/-! ## C10: explicit zero equals omitted parameter -/

/-- C10: passing the zero value explicitly is indistinguishable from omitting
the parameter: `is_stable(0.0)` and `is_loop(0.0)` fall back to the `0.95`
default (so `is_stable(0.0)` is false on `Spos` although its score `0.5` is
positive), `pick(0)` picks exactly one frame, and `can_merge(offset=0)` tests
the strict `end == start`. -/
theorem zero_params_default_spec :
    (∀ r : VideoCutRange, r.is_stable (some 0) = r.is_stable none) ∧
    (∀ sim : ℚ, is_loop sim (some 0) = is_loop sim none) ∧
    (∀ r : VideoCutRange, r.pick (some 0) = r.pick none) ∧
    (∀ r : VideoCutRange, (r.pick none).length = 1) ∧
    (∀ a b : VideoCutRange, a.can_merge b (some 0) = a.can_merge b none) ∧
    (∀ a b : VideoCutRange, a.can_merge b (some 0) =
      ((a.end_ == b.start) && (a.video_path == b.video_path))) ∧
    Spos.is_stable (some 0) = false ∧ listMean Spos.ssim > 0 := by
  refine ⟨fun r => ?_, fun sim => ?_, fun r => rfl, fun r => rfl,
    fun a b => rfl, fun a b => rfl, ?_, ?_⟩
  · simp [VideoCutRange.is_stable, py_default]
  · simp [is_loop, py_default]
  · with_unfolding_all rfl
  · rw [show listMean Spos.ssim = 1/2 from by with_unfolding_all rfl]
    norm_num

/-! ## C6: pick -/

/-- C6: counterexample.  The claim says the evenly spaced pick never returns
the range's end index, and that each index is `start + floor(length/count*i)`.
But `pick(10)` on `{start=10, end=19}` (length 10) returns `[10..19]`, whose
last element is the end index `19`; and on a range with negative start the
`int()` truncation differs from `floor`: `pick(3)` on `{-10,-1}` returns
`[-10,-6,-3]` while the floor formula gives `[-10,-7,-4]`. -/
theorem pick_end_counterexample :
    R6.pick (some 10) = [10, 11, 12, 13, 14, 15, 16, 17, 18, 19] ∧ R6.end_ = 19 ∧
    R6n.pick (some 3) = [-10, -6, -3] ∧
    (List.range 3).map
      (fun (i : Nat) => R6n.start + ⌊(R6n.get_length : ℚ) / ((3 : Int) : ℚ) * (i : ℚ)⌋) =
      [-10, -7, -4] := by
  refine ⟨?_, rfl, ?_, ?_⟩ <;> with_unfolding_all rfl

/-- C6 (amended): for a range with non-negative, normalised bounds and
`count ≥ 1`, the non-random pick returns exactly the indices
`start + floor(length/count * i)` for `i = 0..count-1`, in order; and when
`count < length` (only then) no picked index equals the range's end. -/
theorem pick_spec (r : VideoCutRange) (n : Int)
    (h0 : 0 ≤ r.start) (hr : r.start ≤ r.end_) (h1 : 1 ≤ n) :
    r.pick (some n) =
      (List.range n.toNat).map
        (fun (i : Nat) => r.start + ⌊(r.get_length : ℚ) / (n : ℚ) * (i : ℚ)⌋) ∧
    (n < r.get_length → ∀ x ∈ r.pick (some n), x ≠ r.end_) := by
  have hn : n ≠ 0 := by omega
  have hlen : (1 : Int) ≤ r.get_length := by
    simp only [VideoCutRange.get_length]; omega
  have hn' : (0 : ℚ) < (n : ℚ) := by exact_mod_cast (by omega : (0 : Int) < n)
  have hlen' : (0 : ℚ) ≤ (r.get_length : ℚ) := by
    exact_mod_cast (by omega : (0 : Int) ≤ r.get_length)
  have hpick : r.pick (some n) =
      (List.range n.toNat).map
        (fun (i : Nat) => pyint ((r.start : ℚ) + (r.get_length : ℚ) / (n : ℚ) * (i : ℚ))) := by
    simp [VideoCutRange.pick, hn]
  have harg : ∀ i : Nat,
      (0 : ℚ) ≤ (r.start : ℚ) + (r.get_length : ℚ) / (n : ℚ) * (i : ℚ) := by
    intro i
    have h3 : (0 : ℚ) ≤ (i : ℚ) := by positivity
    have h5 : (0 : ℚ) ≤ (r.get_length : ℚ) / (n : ℚ) * (i : ℚ) := by positivity
    have h4 : (0 : ℚ) ≤ (r.start : ℚ) := by exact_mod_cast h0
    linarith
  have hfloor : ∀ i : Nat,
      pyint ((r.start : ℚ) + (r.get_length : ℚ) / (n : ℚ) * (i : ℚ)) =
        r.start + ⌊(r.get_length : ℚ) / (n : ℚ) * (i : ℚ)⌋ := by
    intro i
    rw [pyint, if_neg (not_lt.mpr (harg i)), Int.floor_int_add]
  constructor
  · rw [hpick]
    exact List.map_congr_left (fun i _ => hfloor i)
  · intro hcount x hx
    rw [hpick] at hx
    simp only [List.mem_map, List.mem_range] at hx
    obtain ⟨i, hi, rfl⟩ := hx
    have hiN : (i : Int) ≤ n - 1 := by omega
    rw [hfloor i]
    intro hEq
    have hiQ : (i : ℚ) ≤ (n : ℚ) - 1 := by
      have h : ((i : Int) : ℚ) ≤ ((n - 1 : Int) : ℚ) := by exact_mod_cast hiN
      push_cast at h
      linarith
    have hcount' : ((n : Int) : ℚ) < (r.get_length : ℚ) := by exact_mod_cast hcount
    have hq : (r.get_length : ℚ) / (n : ℚ) * (i : ℚ) < (r.get_length : ℚ) - 1 := by
      calc (r.get_length : ℚ) / (n : ℚ) * (i : ℚ)
          ≤ (r.get_length : ℚ) / (n : ℚ) * ((n : ℚ) - 1) := by
            exact mul_le_mul_of_nonneg_left hiQ (div_nonneg hlen' (le_of_lt hn'))
        _ = (r.get_length : ℚ) - (r.get_length : ℚ) / (n : ℚ) := by
            field_simp
            ring
        _ < (r.get_length : ℚ) - 1 := by
            have hgt : (1 : ℚ) < (r.get_length : ℚ) / (n : ℚ) := by
              rw [lt_div_iff₀ hn']
              linarith
            linarith
    have hfl : ⌊(r.get_length : ℚ) / (n : ℚ) * (i : ℚ)⌋ < r.get_length - 1 := by
      apply Int.floor_lt.mpr
      push_cast
      linarith
    have hglen : r.get_length = r.end_ - r.start + 1 := rfl
    omega

/-- Witness for `pick_spec`: the spec's own sampling scenario,
`pick(3)` on `{10,19}` giving `[10, 13, 16]`. -/
theorem pick_spec_witness : R6.pick (some 3) = [10, 13, 16] := by
  rw [(pick_spec R6 3 (by decide) (by decide) (by decide)).1]
  with_unfolding_all rfl

/-! ## C8: elementary contiguity -/

/-- C8: counterexample.  The claim says consecutive emitted elementary ranges
satisfy `r[i].end + 1 == r[i+1].start`; the pipeline actually hands the old
end frame id over as the new start (`start_frame_id, end_frame_id =
end_frame_id, end_frame_id + step`), so with step 1 from frame 1 it emits
`[1,2], [2,3]`: the first range ends at 2 and the next starts at 2, not 3. -/
theorem elementary_shared_boundary_counterexample :
    (convert_video_into_ssim_list "v" 1 2 1 2 0 (fun _ => 1) (fun _ => 0)).map
      (fun r => (r.start, r.end_)) = [(1, 2), (2, 3)] ∧ ¬ ((2 : Int) + 1 = 2) := by
  exact ⟨rfl, by decide⟩

/-- C8 (amended): for a positive step and an ordered initial frame pair, the
emitted elementary list satisfies `r[i].end == r[i+1].start` for every pair
of consecutive ranges (consecutive elementary ranges share their boundary
frame). -/
theorem elementary_chain (vp : String) (step : Int) (n : Nat) (s0 e0 : Int)
    (t0 : ℚ) (fs ft : Nat → ℚ) (hstep : 0 < step) (h0 : s0 ≤ e0) :
    List.Chain' (fun a b => a.end_ = b.start)
      (convert_video_into_ssim_list vp step n s0 e0 t0 fs ft) := by
  induction n generalizing s0 e0 t0 fs ft with
  | zero => simp [convert_video_into_ssim_list]
  | succ n ih =>
    rcases n with _ | m
    · simp [convert_video_into_ssim_list]
    · rw [show convert_video_into_ssim_list vp step (m + 1 + 1) s0 e0 t0 fs ft =
          VideoCutRange.make vp s0 e0 [fs 0] t0 (ft 0) ::
          VideoCutRange.make vp e0 (e0 + step) [fs 1] (ft 0) (ft 1) ::
          convert_video_into_ssim_list vp step m (e0 + step) (e0 + step + step) (ft 1)
            (fun k => fs (k + 1 + 1)) (fun k => ft (k + 1 + 1)) from rfl]
      rw [List.chain'_cons]
      constructor
      · simp only [VideoCutRange.make, if_neg (show ¬ s0 > e0 by omega),
          if_neg (show ¬ e0 > e0 + step by omega)]
      · exact ih e0 (e0 + step) (ft 0) (fun k => fs (k + 1)) (fun k => ft (k + 1))
          (by omega)

/-- Witness for `elementary_chain` at a concrete pipeline run. -/
theorem elementary_chain_witness :
    List.Chain' (fun a b => a.end_ = b.start)
      (convert_video_into_ssim_list "v" 1 3 1 2 0 (fun _ => 1) (fun _ => 0)) :=
  elementary_chain "v" 1 3 1 2 0 (fun _ => 1) (fun _ => 0) (by decide) (by decide)

/-! ## C1: counterexample (overlap) -/

/-- C1: counterexample to "no overlaps".  On `res1` the classification
succeeds and returns stable `[0,3], [10,13]` and unstable `[4,10]`: frame 10
lies in both the trailing stable range and the last unstable range, because
the trailing stable range starts at `unstable[-1].end` itself rather than one
frame past it. -/
theorem get_range_overlap_counterexample :
    res1.get_range none none none = some (S1, U1) ∧
    S1.any (fun r => r.contain 10) = true ∧
    U1.any (fun r => r.contain 10) = true := by
  refine ⟨?_, rfl, rfl⟩
  with_unfolding_all rfl

/-! ## Helper lemmas -/

theorem contain_of_make (vp : String) (s e : Int) (ss : List ℚ) (st et : ℚ)
    (fid : Int) (h1 : s ≤ fid) (h2 : fid ≤ e) :
    (VideoCutRange.make vp s e ss st et).contain fid = true := by
  rw [VideoCutRange.make, if_neg (by omega)]
  simp only [VideoCutRange.contain, Bool.and_eq_true, decide_eq_true_eq]
  omega

theorem mem_insert_by_start (r x : VideoCutRange) (l : List VideoCutRange) :
    x ∈ insert_by_start r l ↔ x = r ∨ x ∈ l := by
  induction l with
  | nil => simp [insert_by_start]
  | cons a t ih =>
    rw [insert_by_start]
    by_cases h : r.start ≤ a.start
    · simp [h]
    · simp only [h, if_false, List.mem_cons, ih]
      tauto

theorem mem_sort_by_start (x : VideoCutRange) (l : List VideoCutRange) :
    x ∈ sort_by_start l ↔ x ∈ l := by
  induction l with
  | nil => simp [sort_by_start]
  | cons a t ih =>
    rw [sort_by_start, mem_insert_by_start]
    simp [ih]

/-- Any frame strictly between two unstable ranges of the list handed to
`interior_ranges`, or inside one of them, is contained in the unstable list
or in the interior stable ranges built for it. -/
theorem interior_cover (res : VideoCutResult) :
    ∀ (u L : List VideoCutRange) (f : Int) (u0 uN : VideoCutRange),
      interior_ranges res u = some L → u.head? = some u0 → u.getLast? = some uN →
      u0.start ≤ f → f ≤ uN.end_ →
      (∃ r ∈ u, r.contain f = true) ∨ (∃ r ∈ L, r.contain f = true) := by
  intro u
  induction u with
  | nil => intro L f u0 uN hL h0 hN hf0 hfN; simp at h0
  | cons a u' ih =>
    intro L f u0 uN hL h0 hN hf0 hfN
    obtain rfl : a = u0 := by simpa using h0
    cases u' with
    | nil =>
      obtain rfl : a = uN := by simpa using hN
      left
      refine ⟨a, by simp, ?_⟩
      simp only [VideoCutRange.contain, Bool.and_eq_true, decide_eq_true_eq]
      omega
    | cons b t =>
      simp only [interior_ranges] at hL
      split at hL
      case _ t1 t2 ht1 ht2 =>
        split at hL
        case _ => cases hL
        case _ L' htail =>
          have hLval : L = VideoCutRange.make res.video_path (a.end_ + 1) (b.start - 1)
              [1] t1.start_time t2.end_time :: L' := by
            simpa using hL.symm
          subst hLval
          by_cases hfa : f ≤ a.end_
          · left
            refine ⟨a, by simp, ?_⟩
            simp only [VideoCutRange.contain, Bool.and_eq_true, decide_eq_true_eq]
            omega
          · by_cases hfb : f < b.start
            · right
              exact ⟨VideoCutRange.make res.video_path (a.end_ + 1) (b.start - 1)
                [1] t1.start_time t2.end_time, by simp,
                contain_of_make _ _ _ _ _ _ f (by omega) (by omega)⟩
            · have hNb : (b :: t).getLast? = some uN := by
                rw [← hN, List.getLast?_cons_cons]
              rcases ih L' f b uN htail (by simp) hNb (by omega) hfN with
                ⟨r, hr, hc⟩ | ⟨r, hr, hc⟩
              · exact Or.inl ⟨r, List.mem_cons_of_mem _ hr, hc⟩
              · exact Or.inr ⟨r, List.mem_cons_of_mem _ hr, hc⟩
      case _ hmiss =>
        cases hL

/-! ## C1: the amended partition property -/

/-- C1 (amended): whenever `get_range` succeeds (with `limit = 0` and any
threshold/offset), the stable and unstable lists together cover every frame
of `[0, last_frame_id]` — there are no gaps.  (The "no overlaps" half of the
claim is false: see `get_range_overlap_counterexample` — the trailing stable
range starts at `unstable[-1].end`, a frame the last unstable range also
contains.) -/
theorem get_range_cover (res : VideoCutResult) (threshold : Option ℚ) (off : Option Int)
    (stable unstable : List VideoCutRange)
    (h : res.get_range (some 0) threshold off = some (stable, unstable))
    (f : Int) (hf0 : 0 ≤ f) (hfN : f ≤ last_frame_id res) :
    ∃ r ∈ stable ++ unstable, r.contain f = true := by
  rw [VideoCutResult.get_range] at h
  split at h
  · cases h
  case _ u hu =>
  split at h
  · cases h
  case _ lastE hlast =>
  split at h
  case _ u0 uN h0 hN =>
    split at h
    case _ t1 t2 ht1 ht2 =>
      split at h
      · cases h
      case _ diff hdiff =>
        simp only [Option.some.injEq, Prod.mk.injEq] at h
        obtain ⟨hstable, hunstable⟩ := h
        subst hstable
        subst hunstable
        have hlast' : last_frame_id res = lastE.end_ := by
          rw [last_frame_id, hlast]
        rw [hlast'] at hfN
        have hmemS : ∀ r : VideoCutRange,
            r ∈ (VideoCutRange.make res.video_path 0 (u0.start - 1) [1] 0 t1.start_time ::
                 VideoCutRange.make res.video_path uN.end_ lastE.end_ [1] t2.end_time
                   lastE.end_time :: diff) →
            r ∈ sort_by_start (apply_limit (some 0)
              (VideoCutRange.make res.video_path 0 (u0.start - 1) [1] 0 t1.start_time ::
               VideoCutRange.make res.video_path uN.end_ lastE.end_ [1] t2.end_time
                 lastE.end_time :: diff)) ++ u := by
          intro r hr
          rw [List.mem_append]
          left
          rw [mem_sort_by_start]
          simpa [apply_limit] using hr
        rcases lt_or_ge f u0.start with hlt | hge
        · exact ⟨VideoCutRange.make res.video_path 0 (u0.start - 1) [1] 0 t1.start_time,
            hmemS _ (by simp), contain_of_make _ _ _ _ _ _ f hf0 (by omega)⟩
        rcases le_or_lt f uN.end_ with hmid | hgt
        · rcases interior_cover res u diff f u0 uN hdiff h0 hN hge hmid with
            ⟨r, hr, hc⟩ | ⟨r, hr, hc⟩
          · exact ⟨r, by rw [List.mem_append]; exact Or.inr hr, hc⟩
          · exact ⟨r, hmemS _ (by simp [hr]), hc⟩
        · exact ⟨VideoCutRange.make res.video_path uN.end_ lastE.end_ [1] t2.end_time
            lastE.end_time, hmemS _ (by simp),
            contain_of_make _ _ _ _ _ _ f (by omega) (by omega)⟩
    case _ hmiss =>
      cases h
  case _ hmiss =>
    cases h

/-- Witness for `get_range_cover`: on `res1`, frame 5 is covered by the
returned lists. -/
theorem get_range_cover_witness : ∃ r ∈ S1 ++ U1, r.contain 5 = true :=
  get_range_cover res1 none none S1 U1 (by with_unfolding_all rfl) 5 (by decide)
    (of_decide_eq_true (by with_unfolding_all rfl))

/-! ## Structure lemmas about pipeline-shaped elementary lists -/

theorem mem_of_getLast? {α : Type} {l : List α} {a : α} (h : l.getLast? = some a) :
    a ∈ l := by
  obtain ⟨ys, rfl⟩ := List.getLast?_eq_some_iff.mp h
  simp

theorem pairwise_getLast {α : Type} {R : α → α → Prop} :
    ∀ (l : List α) (m : α),
      List.Pairwise R l → l.getLast? = some m → ∀ x ∈ l, x = m ∨ R x m := by
  intro l
  induction l with
  | nil => intro m _ hm; cases hm
  | cons a t ih =>
    intro m hp hm x hx
    cases t with
    | nil =>
      obtain rfl : a = m := by simpa using hm
      rcases List.mem_singleton.mp hx with rfl
      exact Or.inl rfl
    | cons b t' =>
      rw [List.getLast?_cons_cons] at hm
      rw [List.pairwise_cons] at hp
      obtain ⟨ha, hp'⟩ := hp
      rcases List.mem_cons.mp hx with rfl | hx'
      · exact Or.inr (ha m (mem_of_getLast? hm))
      · exact ih m hp' hm x hx'

/-- A chain of elementary ranges sharing boundary frames, each of positive
length, is pairwise ordered: every earlier range ends no later than a later
one starts. -/
theorem chain_pairwise :
    ∀ l : List VideoCutRange,
      List.Chain' (fun a b => a.end_ = b.start) l →
      (∀ r ∈ l, r.start < r.end_) →
      List.Pairwise (fun a b => a.end_ ≤ b.start) l := by
  intro l
  induction l with
  | nil => intro _ _; exact List.Pairwise.nil
  | cons a t ih =>
    intro hc hn
    rw [List.chain'_cons'] at hc
    obtain ⟨hab, hct⟩ := hc
    have hpt := ih hct (fun r hr => hn r (List.mem_cons_of_mem _ hr))
    rw [List.pairwise_cons]
    refine ⟨?_, hpt⟩
    intro b hb
    cases t with
    | nil => cases hb
    | cons b0 t' =>
      have h0 : a.end_ = b0.start := hab b0 rfl
      rcases List.mem_cons.mp hb with rfl | hb'
      · omega
      · rw [List.pairwise_cons] at hpt
        have h1 := hpt.1 b hb'
        have h2 := hn b0 (by simp)
        omega

theorem elem_bounds (l : List VideoCutRange) (e0 eN : VideoCutRange)
    (hp : List.Pairwise (fun a b => a.end_ ≤ b.start) l)
    (hn : ∀ r ∈ l, r.start < r.end_)
    (h0 : l.head? = some e0) (hN : l.getLast? = some eN) :
    ∀ r ∈ l, e0.start ≤ r.start ∧ r.end_ ≤ eN.end_ := by
  intro r hr
  constructor
  · cases l with
    | nil => cases hr
    | cons a t =>
      obtain rfl : a = e0 := by simpa using h0
      rcases List.mem_cons.mp hr with rfl | hr'
      · omega
      · rw [List.pairwise_cons] at hp
        have h1 := hp.1 r hr'
        have h2 := hn a (by simp)
        omega
  · rcases pairwise_getLast l eN hp hN r hr with rfl | hrel
    · omega
    · have h2 := hn eN (mem_of_getLast? hN)
      omega

/-- Every frame id within the span of a boundary-sharing elementary chain is
contained in one of its ranges. -/
theorem chain_coverage :
    ∀ (l : List VideoCutRange) (e0 eN : VideoCutRange) (fid : Int),
      List.Chain' (fun a b => a.end_ = b.start) l →
      l.head? = some e0 → l.getLast? = some eN →
      e0.start ≤ fid → fid ≤ eN.end_ →
      ∃ r ∈ l, r.contain fid = true := by
  intro l
  induction l with
  | nil => intro e0 eN fid _ h0 _ _ _; cases h0
  | cons a t ih =>
    intro e0 eN fid hc h0 hN hf0 hfN
    obtain rfl : a = e0 := by simpa using h0
    cases t with
    | nil =>
      obtain rfl : a = eN := by simpa using hN
      refine ⟨a, by simp, ?_⟩
      simp only [VideoCutRange.contain, Bool.and_eq_true, decide_eq_true_eq]
      omega
    | cons b t' =>
      by_cases hfa : fid ≤ a.end_
      · refine ⟨a, by simp, ?_⟩
        simp only [VideoCutRange.contain, Bool.and_eq_true, decide_eq_true_eq]
        omega
      · rw [List.chain'_cons] at hc
        obtain ⟨hab, hct⟩ := hc
        obtain ⟨r, hr, hcont⟩ := ih b eN fid hct (by simp)
          (by rw [← hN, List.getLast?_cons_cons]) (by omega) hfN
        exact ⟨r, List.mem_cons_of_mem _ hr, hcont⟩

/-- A frame lookup within the elementary span succeeds. -/
theorem lookup_isSome (res : VideoCutResult) (e0 eN : VideoCutRange) (fid : Int)
    (hc : List.Chain' (fun a b => a.end_ = b.start) res.ssim_list)
    (h0 : res.ssim_list.head? = some e0) (hN : res.ssim_list.getLast? = some eN)
    (hf0 : e0.start ≤ fid) (hfN : fid ≤ eN.end_) :
    (res.get_target_range_by_id fid).isSome = true := by
  rw [VideoCutResult.get_target_range_by_id, List.find?_isSome]
  exact chain_coverage res.ssim_list e0 eN fid hc h0 hN hf0 hfN

theorem insert_by_start_eq_cons (r : VideoCutRange) (l : List VideoCutRange)
    (h : ∀ x ∈ l.head?, r.start ≤ x.start) : insert_by_start r l = r :: l := by
  cases l with
  | nil => rfl
  | cons a t => rw [insert_by_start, if_pos (h a rfl)]

theorem sort_by_start_eq_self (l : List VideoCutRange)
    (h : List.Pairwise (fun a b => a.start ≤ b.start) l) : sort_by_start l = l := by
  induction l with
  | nil => rfl
  | cons a t ih =>
    rw [List.pairwise_cons] at h
    rw [sort_by_start, ih h.2, insert_by_start_eq_cons]
    intro x hx
    cases t with
    | nil => cases hx
    | cons b t' =>
      obtain rfl : b = x := by simpa using hx
      exact h.1 b (by simp)

theorem scanMerge_nil (off : Option Int) (cur : VideoCutRange) :
    scanMerge off cur [] = [cur] := by
  rw [scanMerge.eq_def]

theorem scanMerge_cons (off : Option Int) (cur b : VideoCutRange)
    (rest : List VideoCutRange) :
    scanMerge off cur (b :: rest) =
      if cur.can_merge b off then scanMerge off (cur.merge_value b) rest
      else match rest with
        | [] => [cur]
        | _ :: _ => cur :: scanMerge off b rest := by
  rw [scanMerge.eq_def]

/-- Specification of the merge scan at the default offset on a same-video,
boundary-ordered candidate list: the emitted list is non-empty, every emitted
range takes its `start` and `end` from candidate ranges and has positive
length, and consecutive emitted ranges are separated by a strict gap
(`end < start` of the next). -/
theorem scanMerge_none_spec (v : String) :
    ∀ (rest : List VideoCutRange) (cur : VideoCutRange),
      cur.video_path = v → (∀ r ∈ rest, r.video_path = v) →
      cur.start < cur.end_ → (∀ r ∈ rest, r.start < r.end_) →
      List.Pairwise (fun a b => a.end_ ≤ b.start) (cur :: rest) →
      (scanMerge none cur rest ≠ [] ∧
       (∀ m ∈ scanMerge none cur rest,
          (m.start = cur.start ∨ ∃ c ∈ rest, m.start = c.start) ∧
          (m.end_ = cur.end_ ∨ ∃ c ∈ rest, m.end_ = c.end_) ∧
          m.start < m.end_) ∧
       List.Pairwise (fun a b => a.end_ < b.start) (scanMerge none cur rest)) := by
  intro rest
  induction rest with
  | nil =>
    intro cur hv _ hcur _ _
    refine ⟨by simp [scanMerge_nil], ?_, by simp [scanMerge_nil]⟩
    intro m hm
    rw [scanMerge_nil] at hm
    rcases List.mem_singleton.mp hm with rfl
    exact ⟨Or.inl rfl, Or.inl rfl, hcur⟩
  | cons b rest' ih =>
    intro cur hv hvs hcur hns hp
    rw [List.pairwise_cons] at hp
    obtain ⟨hcb, hp'⟩ := hp
    have hvb : b.video_path = v := hvs b (by simp)
    have hnb : b.start < b.end_ := hns b (by simp)
    have hle : cur.end_ ≤ b.start := hcb b (by simp)
    by_cases hm : cur.can_merge b none = true
    · have hend : cur.end_ = b.start := by
        simp only [VideoCutRange.can_merge, Bool.and_eq_true, beq_iff_eq] at hm
        exact hm.1
      have hmv : cur.merge_value b =
          ⟨cur.video_path, cur.start, b.end_, cur.ssim ++ b.ssim,
            cur.start_time, b.end_time⟩ := by
        rw [VideoCutRange.merge_value, VideoCutRange.make, if_neg (by omega)]
      have hscan : scanMerge none cur (b :: rest') =
          scanMerge none (cur.merge_value b) rest' := by
        rw [scanMerge_cons, if_pos hm]
      rw [hscan, hmv]
      have ihm := ih ⟨cur.video_path, cur.start, b.end_, cur.ssim ++ b.ssim,
          cur.start_time, b.end_time⟩
        hv
        (fun r hr => hvs r (List.mem_cons_of_mem _ hr))
        (show cur.start < b.end_ by omega)
        (fun r hr => hns r (List.mem_cons_of_mem _ hr))
        (by
          rw [List.pairwise_cons]
          exact ⟨fun r hr => (List.pairwise_cons.mp hp').1 r hr,
            (List.pairwise_cons.mp hp').2⟩)
      refine ⟨ihm.1, ?_, ihm.2.2⟩
      intro m hmem
      obtain ⟨hs, he, hlt'⟩ := ihm.2.1 m hmem
      refine ⟨?_, ?_, hlt'⟩
      · rcases hs with h | ⟨c, hc, h⟩
        · exact Or.inl h
        · exact Or.inr ⟨c, List.mem_cons_of_mem _ hc, h⟩
      · rcases he with h | ⟨c, hc, h⟩
        · exact Or.inr ⟨b, by simp, h⟩
        · exact Or.inr ⟨c, List.mem_cons_of_mem _ hc, h⟩
    · have hlt : cur.end_ < b.start := by
        have hne : cur.end_ ≠ b.start := by
          intro h1
          apply hm
          simp [VideoCutRange.can_merge, h1, hv, hvb]
        omega
      cases rest' with
      | nil =>
        have hscan : scanMerge none cur [b] = [cur] := by
          rw [scanMerge_cons, if_neg hm]
        rw [hscan]
        refine ⟨by simp, ?_, by simp⟩
        intro m hmem
        rcases List.mem_singleton.mp hmem with rfl
        exact ⟨Or.inl rfl, Or.inl rfl, hcur⟩
      | cons c' t' =>
        have hscan : scanMerge none cur (b :: c' :: t') =
            cur :: scanMerge none b (c' :: t') := by
          rw [scanMerge_cons, if_neg hm]
        rw [hscan]
        have ihb := ih b hvb (fun r hr => hvs r (List.mem_cons_of_mem _ hr)) hnb
          (fun r hr => hns r (List.mem_cons_of_mem _ hr)) hp'
        refine ⟨by simp, ?_, ?_⟩
        · intro m hmem
          rcases List.mem_cons.mp hmem with rfl | hmem'
          · exact ⟨Or.inl rfl, Or.inl rfl, hcur⟩
          · obtain ⟨hs, he, hlt'⟩ := ihb.2.1 m hmem'
            refine ⟨?_, ?_, hlt'⟩
            · rcases hs with h | ⟨c, hc, h⟩
              · exact Or.inr ⟨b, by simp, h⟩
              · exact Or.inr ⟨c, List.mem_cons_of_mem _ hc, h⟩
            · rcases he with h | ⟨c, hc, h⟩
              · exact Or.inr ⟨b, by simp, h⟩
              · exact Or.inr ⟨c, List.mem_cons_of_mem _ hc, h⟩
        · rw [List.pairwise_cons]
          refine ⟨?_, ihb.2.2⟩
          intro m hmem
          obtain ⟨hs, _, _⟩ := ihb.2.1 m hmem
          rcases hs with h | ⟨c, hc, h⟩
          · omega
          · have h1 : b.end_ ≤ c.start := (List.pairwise_cons.mp hp').1 c hc
            omega

theorem pairwise_end_le_getLast (l : List VideoCutRange) (m : VideoCutRange)
    (hp : List.Pairwise (fun a b => a.end_ < b.start) l)
    (hn : ∀ r ∈ l, r.start < r.end_)
    (hm : l.getLast? = some m) : ∀ x ∈ l, x.end_ ≤ m.end_ := by
  intro x hx
  rcases pairwise_getLast l m hp hm x hx with rfl | hrel
  · omega
  · have := hn m (mem_of_getLast? hm)
    omega

/-- When all the lookups the interior-range loop performs succeed, the loop
itself succeeds. -/
theorem interior_ranges_isSome (res : VideoCutResult) :
    ∀ u : List VideoCutRange,
      (∀ r ∈ u, (res.get_target_range_by_id (r.end_ + 1 - 1)).isSome = true) →
      (∀ r ∈ u.tail, (res.get_target_range_by_id (r.start - 1 - 1)).isSome = true) →
      (interior_ranges res u).isSome = true := by
  intro u
  induction u with
  | nil => intro _ _; rw [interior_ranges]; rfl
  | cons a u' ih =>
    intro h1 h2
    cases u' with
    | nil => rw [interior_ranges]; rfl
    | cons b t =>
      rw [interior_ranges]
      obtain ⟨t1, ht1⟩ := Option.isSome_iff_exists.mp (h1 a (by simp))
      obtain ⟨t2, ht2⟩ := Option.isSome_iff_exists.mp (h2 b (by simp))
      rw [ht1, ht2]
      obtain ⟨tail, htail⟩ := Option.isSome_iff_exists.mp
        (ih (fun r hr => h1 r (List.mem_cons_of_mem _ hr))
            (fun r hr => h2 r (List.mem_cons_of_mem _ hr)))
      rw [htail]
      rfl

/-! ## C7: frame lookups inside get_range -/

/-- C7: counterexample.  On a video whose first elementary range is already
unstable, `get_unstable_range` succeeds but `get_range` looks up frame id
`unstable[0].start - 2 = -1`, which lies outside every elementary range, so
the claimed "never raises frame-not-found" fails: `get_range` errors. -/
theorem frame_lookup_counterexample :
    (resEarlyUnstable.get_unstable_range none none none).isSome = true ∧
    resEarlyUnstable.get_range none none none = none := by
  constructor <;> with_unfolding_all rfl

/-- C7 (amended): a lookup outside every elementary range reports the
frame-not-found error; and on a pipeline-shaped elementary list (shared
boundary frames, positive-length ranges, one video) whose first unstable
range starts at least two frames after the first elementary range, every
boundary id `get_range` passes to `get_target_range_by_id` falls inside some
elementary range, so `get_range` succeeds.  (When the first unstable range
starts earlier, the leading lookup escapes the elementary span and the error
does occur: see `frame_lookup_counterexample`.) -/
theorem get_range_lookups_safe :
    (∀ (res : VideoCutResult) (fid : Int),
      (∀ r ∈ res.ssim_list, r.contain fid = false) →
      res.get_target_range_by_id fid = none) ∧
    (∀ (res : VideoCutResult) (threshold : Option ℚ) (u : List VideoCutRange)
       (e0 u0 : VideoCutRange),
      (∀ r ∈ res.ssim_list, r.video_path = res.video_path) →
      (∀ r ∈ res.ssim_list, r.start < r.end_) →
      List.Chain' (fun a b => a.end_ = b.start) res.ssim_list →
      res.ssim_list.head? = some e0 →
      res.get_unstable_range none threshold none = some u →
      u.head? = some u0 →
      e0.start + 2 ≤ u0.start →
      (res.get_range none threshold none).isSome = true) := by
  constructor
  · intro res fid h
    rw [VideoCutResult.get_target_range_by_id, List.find?_eq_none]
    intro x hx
    simp [h x hx]
  · intro res threshold u e0 u0 hvp hlt hch hhead hu hu0 hgap
    have hne : res.ssim_list ≠ [] := by
      intro hnil
      rw [hnil] at hhead
      cases hhead
    obtain ⟨eN, hlastE⟩ := Option.isSome_iff_exists.mp (List.getLast?_isSome.mpr hne)
    have hpl : List.Pairwise (fun a b => a.end_ ≤ b.start) res.ssim_list :=
      chain_pairwise res.ssim_list hch hlt
    have hbounds := elem_bounds res.ssim_list e0 eN hpl hlt hhead hlastE
    have hclmem : ∀ r ∈ res.ssim_list.filter (fun i => ! i.is_stable threshold),
        r ∈ res.ssim_list := fun r hr => (List.mem_filter.mp hr).1
    have hclp : List.Pairwise (fun a b => a.end_ ≤ b.start)
        (res.ssim_list.filter (fun i => ! i.is_stable threshold)) :=
      List.Pairwise.sublist (List.filter_sublist _) hpl
    have hclS : List.Pairwise (fun a b => a.start ≤ b.start)
        (res.ssim_list.filter (fun i => ! i.is_stable threshold)) := by
      refine List.Pairwise.imp_of_mem ?_ hclp
      intro a b ha hb hab
      have := hlt a (hclmem a ha)
      omega
    have hsorted := sort_by_start_eq_self _ hclS
    have hu' := hu
    rw [VideoCutResult.get_unstable_range, hsorted] at hu'
    split at hu'
    · cases hu'
    · cases hu'
    case _ c1 c2 cs heq =>
      split at hu'
      · cases hu'
      case _ m hgetlast =>
        simp only [apply_limit, Option.some.injEq] at hu'
        have hcand_mem : ∀ r ∈ (c1 :: c2 :: cs), r ∈ res.ssim_list := by
          intro r hr
          apply hclmem
          rw [heq]
          exact hr
        have hcand_vp : ∀ r ∈ (c1 :: c2 :: cs), r.video_path = res.video_path :=
          fun r hr => hvp r (hcand_mem r hr)
        have hcand_lt : ∀ r ∈ (c1 :: c2 :: cs), r.start < r.end_ :=
          fun r hr => hlt r (hcand_mem r hr)
        have hcand_p : List.Pairwise (fun a b => a.end_ ≤ b.start) (c1 :: c2 :: cs) := by
          rw [← heq]
          exact hclp
        obtain ⟨hSne, hSsrc, hSpair⟩ := scanMerge_none_spec res.video_path (c2 :: cs) c1
          (hcand_vp c1 (by simp)) (fun r hr => hcand_vp r (List.mem_cons_of_mem _ hr))
          (hcand_lt c1 (by simp)) (fun r hr => hcand_lt r (List.mem_cons_of_mem _ hr))
          hcand_p
        have hsrc : ∀ m' ∈ scanMerge none c1 (c2 :: cs),
            (∃ c ∈ res.ssim_list, m'.start = c.start) ∧
            (∃ c ∈ res.ssim_list, m'.end_ = c.end_) ∧ m'.start < m'.end_ := by
          intro m' hm'
          obtain ⟨hs, he, hlt'⟩ := hSsrc m' hm'
          refine ⟨?_, ?_, hlt'⟩
          · rcases hs with h | ⟨c, hc, h⟩
            · exact ⟨c1, hcand_mem c1 (by simp), h⟩
            · exact ⟨c, hcand_mem c (List.mem_cons_of_mem _ hc), h⟩
          · rcases he with h | ⟨c, hc, h⟩
            · exact ⟨c1, hcand_mem c1 (by simp), h⟩
            · exact ⟨c, hcand_mem c (List.mem_cons_of_mem _ hc), h⟩
        have hlastC_mem : (c2 :: cs).getLast (List.cons_ne_nil _ _) ∈ res.ssim_list :=
          hcand_mem _ (List.mem_cons_of_mem _ (List.getLast_mem _))
        have hufacts :
            (∀ m' ∈ u, (∃ c ∈ res.ssim_list, m'.start = c.start) ∧
              (∃ c ∈ res.ssim_list, m'.end_ = c.end_) ∧ m'.start < m'.end_) ∧
            List.Pairwise (fun a b => a.end_ < b.start) u := by
          by_cases hcond : ((c2 :: cs).getLast (List.cons_ne_nil _ _)).start > m.end_
          · rw [if_pos hcond] at hu'
            subst hu'
            constructor
            · intro m' hm'
              rcases List.mem_append.mp hm' with hm' | hm'
              · exact hsrc m' hm'
              · rcases List.mem_singleton.mp hm' with rfl
                exact ⟨⟨_, hlastC_mem, rfl⟩, ⟨_, hlastC_mem, rfl⟩, hlt _ hlastC_mem⟩
            · rw [List.pairwise_append]
              refine ⟨hSpair, by simp, ?_⟩
              intro x hx y hy
              rcases List.mem_singleton.mp hy with rfl
              have hxle := pairwise_end_le_getLast _ m hSpair
                (fun r hr => (hsrc r hr).2.2) hgetlast x hx
              omega
          · rw [if_neg hcond] at hu'
            subst hu'
            exact ⟨hsrc, hSpair⟩
        obtain ⟨husrc, hupair⟩ := hufacts
        have hu_in_bounds : ∀ m' ∈ u,
            e0.start ≤ m'.start ∧ m'.start ≤ eN.end_ ∧
            e0.start + 1 ≤ m'.end_ ∧ m'.end_ ≤ eN.end_ := by
          intro m' hm'
          obtain ⟨⟨c, hcmem, hcs⟩, ⟨d, hdmem, hde⟩, hlt'⟩ := husrc m' hm'
          have hb1 := hbounds c hcmem
          have hb2 := hbounds d hdmem
          have hc1 := hlt c hcmem
          have hd1 := hlt d hdmem
          exact ⟨by omega, by omega, by omega, by omega⟩
        obtain ⟨us, rfl⟩ := List.head?_eq_some_iff.mp hu0
        have hu0facts := hu_in_bounds u0 (by simp)
        have htail_start : ∀ r ∈ us, u0.end_ < r.start :=
          fun r hr => (List.pairwise_cons.mp hupair).1 r hr
        obtain ⟨uN, huN⟩ := Option.isSome_iff_exists.mp
          (List.getLast?_isSome.mpr (List.cons_ne_nil u0 us))
        have huNfacts := hu_in_bounds uN (mem_of_getLast? huN)
        obtain ⟨t1, ht1⟩ := Option.isSome_iff_exists.mp
          (lookup_isSome res e0 eN (u0.start - 1 - 1) hch hhead hlastE
            (by omega) (by omega))
        obtain ⟨t2, ht2⟩ := Option.isSome_iff_exists.mp
          (lookup_isSome res e0 eN (uN.end_ - 1) hch hhead hlastE
            (by omega) (by omega))
        have hint : (interior_ranges res (u0 :: us)).isSome = true := by
          apply interior_ranges_isSome
          · intro r hr
            have := hu_in_bounds r hr
            exact lookup_isSome res e0 eN _ hch hhead hlastE (by omega) (by omega)
          · intro r hr
            have hrb := hu_in_bounds r (List.mem_cons_of_mem _ hr)
            have hgt := htail_start r hr
            exact lookup_isSome res e0 eN _ hch hhead hlastE (by omega) (by omega)
        obtain ⟨diff, hdiff⟩ := Option.isSome_iff_exists.mp hint
        simp only [VideoCutResult.get_range, hu, hlastE, huN, ht1, ht2, hdiff,
          List.head?_cons]
        rfl

/-- Witness for `get_range_lookups_safe` on `res1`, whose first unstable
range starts at frame 4, three frames after the elementary start. -/
theorem get_range_lookups_safe_witness :
    (res1.get_range none none none).isSome = true :=
  get_range_lookups_safe.2 res1 none U1 e1 ⟨"v", 4, 10, [1/2, 1/2], 1, 3⟩
    (by decide) (by decide)
    (by
      refine List.chain'_cons.mpr ⟨by decide, ?_⟩
      refine List.chain'_cons.mpr ⟨by decide, ?_⟩
      refine List.chain'_cons.mpr ⟨by decide, ?_⟩
      simp)
    rfl (by with_unfolding_all rfl) rfl (by decide)

end Stagesepx
